import Mathlib

/-!
Shallow embedding of the subtitle chunking and timeline resolution engine of
the Create_video repository (remotion_short_video), together with proofs
about the properties its specification claims.

Strings are modelled as lists of characters (`Str`); JavaScript numbers that
hold times or durations are modelled as exact rationals, frame numbers as
integers.  JavaScript `Math.round` is round-half-up (`jsRound`), `Math.ceil`
is `jsCeil`.
-/

abbrev Str := List Char

/-- The JavaScript whitespace class used by `trim`, `parseInt` and the
regular-expression class `\s` (ASCII part, which is what the repository's
inputs use). -/
def jsIsWs (c : Char) : Bool :=
  c == ' ' || c == '\t' || c == '\n' || c == '\r' || c == '\x0b' || c == '\x0c'

/-- JavaScript `String.prototype.trim`: drop whitespace from both ends. -/
def jsTrim (s : Str) : Str :=
  ((s.dropWhile jsIsWs).reverse.dropWhile jsIsWs).reverse

/-- JavaScript `Math.round`: round half away from zero on non-negative
values, i.e. `floor (q + 1/2)` (which is `Math.round`'s behaviour on every
rational, positive or negative). -/
def jsRound (q : ℚ) : ℤ := ⌊q + 1/2⌋

/-- JavaScript `Math.ceil`. -/
def jsCeil (q : ℚ) : ℤ := ⌈q⌉

/-- `String.prototype.split` with a single-character separator; empty pieces
are kept, and the empty string yields one empty piece, as in JavaScript. -/
def splitOnChar (sep : Char) : Str → List Str
  | [] => [[]]
  | c :: r =>
    if c == sep then [] :: splitOnChar sep r
    else
      match splitOnChar sep r with
      | [] => [[c]]
      | p :: ps => (c :: p) :: ps

/-- Worker for `tokens`: scans the string one character at a time, keeping
the current (reversed) in-progress word. -/
def tokensGo : Str → Str → List Str
  | acc, [] => if acc.isEmpty then [] else [acc.reverse]
  | acc, c :: r =>
    if jsIsWs c then
      if acc.isEmpty then tokensGo [] r else acc.reverse :: tokensGo [] r
    else tokensGo (c :: acc) r

/-- `text.split(/\s+/).filter(w => w.length > 0)`: the list of maximal
nonempty runs of non-whitespace characters, in order.  Splitting on
whitespace runs and then dropping empty fragments produces exactly these
runs. -/
def tokens (s : Str) : List Str := tokensGo [] s

/-- `Array.prototype.join(' ')` on a list of strings. -/
def joinSpace : List Str → Str
  | [] => []
  | [w] => w
  | w :: ws => w ++ ' ' :: joinSpace ws

def digitVal (c : Char) : ℕ := c.toNat - '0'.toNat

def jsIsHexDigit (c : Char) : Bool :=
  c.isDigit || ('a' ≤ c && c ≤ 'f') || ('A' ≤ c && c ≤ 'F')

def hexDigitVal (c : Char) : ℕ :=
  if c.isDigit then digitVal c
  else if 'a' ≤ c ∧ c ≤ 'f' then c.toNat - 'a'.toNat + 10
  else c.toNat - 'A'.toNat + 10

def digitsToNat (base : ℕ) (f : Char → ℕ) (l : Str) : ℕ :=
  l.foldl (fun acc c => acc * base + f c) 0

/-- JavaScript `parseInt(s)` with no radix argument: skip leading
whitespace, read an optional sign, recognise a `0x`/`0X` prefix as
hexadecimal, otherwise read leading decimal digits; `none` models `NaN`.
(Precision loss of doubles beyond `2^53` is not modelled.) -/
def parseJsInt (s : Str) : Option ℤ :=
  let s1 := s.dropWhile jsIsWs
  let (sign, s2) : ℤ × Str :=
    match s1 with
    | '-' :: r => (-1, r)
    | '+' :: r => (1, r)
    | _ => (1, s1)
  match s2 with
  | '0' :: 'x' :: r => parseHex sign r
  | '0' :: 'X' :: r => parseHex sign r
  | _ =>
    let ds := s2.takeWhile Char.isDigit
    if ds.isEmpty then none
    else some (sign * (digitsToNat 10 digitVal ds : ℤ))
where
  parseHex (sign : ℤ) (r : Str) : Option ℤ :=
    let ds := r.takeWhile jsIsHexDigit
    if ds.isEmpty then none
    else some (sign * (digitsToNat 16 hexDigitVal ds : ℤ))

/-- Two-digit group of the SRT timestamp pattern. -/
def readTwoDigits : Str → Option (ℕ × Str)
  | a :: b :: r =>
    if a.isDigit && b.isDigit then some (10 * digitVal a + digitVal b, r)
    else none
  | _ => none

/-- Three-digit group of the SRT timestamp pattern. -/
def readThreeDigits : Str → Option (ℕ × Str)
  | a :: b :: c :: r =>
    if a.isDigit && b.isDigit && c.isDigit then
      some (100 * digitVal a + 10 * digitVal b + digitVal c, r)
    else none
  | _ => none

def expectChar (c : Char) : Str → Option Str
  | x :: r => if x == c then some r else none
  | _ => none

def expectChars (cs : Str) (s : Str) : Option Str :=
  cs.foldlM (fun rest c => expectChar c rest) s

/-- One timestamp half `dd:dd:dd,ddd` of the pattern
`(\d{2}):(\d{2}):(\d{2}),(\d{3})`. -/
def matchClock (s : Str) : Option ((ℕ × ℕ × ℕ × ℕ) × Str) := do
  let (h, s) ← readTwoDigits s
  let s ← expectChar ':' s
  let (m, s) ← readTwoDigits s
  let s ← expectChar ':' s
  let (sec, s) ← readTwoDigits s
  let s ← expectChar ',' s
  let (ms, s) ← readThreeDigits s
  pure ((h, m, sec, ms), s)

/-- Attempt to match the full regular expression
`(\d{2}):(\d{2}):(\d{2}),(\d{3}) --> (\d{2}):(\d{2}):(\d{2}),(\d{3})`
at the start of the string. -/
def matchTimestampAt (s : Str) : Option ((ℕ × ℕ × ℕ × ℕ) × (ℕ × ℕ × ℕ × ℕ)) := do
  let (t1, s) ← matchClock s
  let s ← expectChars [' ', '-', '-', '>', ' '] s
  let (t2, _) ← matchClock s
  pure (t1, t2)

/-- Unanchored regular-expression search: try the pattern at every
position, leftmost match wins (as `String.prototype.match` does). -/
def findTimestamp : Str → Option ((ℕ × ℕ × ℕ × ℕ) × (ℕ × ℕ × ℕ × ℕ))
  | [] => matchTimestampAt []
  | c :: t =>
    match matchTimestampAt (c :: t) with
    | some r => some r
    | none => findTimestamp t

/-- `parseTime` of srtParser.ts: `H*3600 + M*60 + S + ms/1000`, exact. -/
def parseTimeQ (t : ℕ × ℕ × ℕ × ℕ) : ℚ :=
  t.1 * 3600 + t.2.1 * 60 + t.2.2.1 + (t.2.2.2 : ℚ) / 1000

structure SubtitleEntry where
  id : ℤ
  startTime : ℚ
  endTime : ℚ
  text : Str
  deriving DecidableEq, Repr

/-- `/^\d+$/`: the whole line is one or more ASCII digits. -/
def isAllDigits (s : Str) : Bool := !s.isEmpty && s.all Char.isDigit

/-- The text-collection condition of the parser's inner while loop:
`lines[i].trim() !== '' && !lines[i].match(/^\d+$/)`. -/
def textLineP (s : Str) : Bool := !(jsTrim s).isEmpty && !isAllDigits s

/-- Control state of `parseSRT`'s scanning loop: about to read an id line,
about to read a timestamp line, or collecting text lines of one cue. -/
inductive PLState where
  | idle : PLState
  | expectTime : ℤ → PLState
  | collect : ℤ → ℚ → ℚ → List Str → PLState
  deriving DecidableEq

/-- Processing of one line in the id-seeking state: blank lines and lines
whose `parseInt` is `NaN` are skipped, a numeric line moves to the
timestamp-seeking state. -/
def idleStep (l : Str) : PLState :=
  if (jsTrim l).isEmpty then .idle
  else
    match parseJsInt l with
    | none => .idle
    | some id => .expectTime id

def mkEntry (id : ℤ) (st et : ℚ) (textLines : List Str) : SubtitleEntry :=
  ⟨id, st, et, jsTrim (joinSpace textLines)⟩

/-- The `while (i < lines.length)` loop of `parseSRT`, written as a state
machine that consumes exactly one line per step (each `i++` of the source
is one consumed line). -/
def plGo : PLState → List Str → List SubtitleEntry
  | .idle, [] => []
  | .idle, l :: rest => plGo (idleStep l) rest
  | .expectTime _, [] => []
  | .expectTime id, l :: rest =>
    match findTimestamp l with
    | none => plGo .idle rest
    | some (t1, t2) => plGo (.collect id (parseTimeQ t1) (parseTimeQ t2) []) rest
  | .collect id st et acc, [] => [mkEntry id st et acc]
  | .collect id st et acc, l :: rest =>
    if textLineP l then plGo (.collect id st et (acc ++ [l])) rest
    else mkEntry id st et acc :: plGo (idleStep l) rest

/-- `parseSRT` of srtParser.ts: trim the content, split on newlines, run
the cue-scanning loop. -/
def parseSRT (srtContent : Str) : List SubtitleEntry :=
  plGo .idle (splitOnChar '\n' (jsTrim srtContent))

/-- `getCurrentSubtitle` of srtParser.ts. -/
def getCurrentSubtitle (subtitles : List SubtitleEntry) (currentTime : ℚ) : Option Str :=
  (subtitles.find? fun s =>
    decide (s.startTime ≤ currentTime) && decide (currentTime ≤ s.endTime)).map (·.text)

example : parseSRT "1\n00:00:01,000 --> 00:00:02,500\nhola mundo".data =
    [⟨1, parseTimeQ (0, 0, 1, 0), parseTimeQ (0, 0, 2, 500), "hola mundo".data⟩] := rfl

example : parseTimeQ (0, 0, 2, 500) = 5/2 := by norm_num [parseTimeQ]

/-! ## Character-mode chunker (chunk-srt.ts, used through segmentedPromptsParser) -/

structure ChunkConfig where
  maxChars : ℕ
  minDuration : ℚ
  fps : ℚ
  gapFrames : ℤ
  wordBreakPriority : List Str
  deriving DecidableEq

structure SubtitleChunk where
  startFrame : ℤ
  endFrame : ℤ
  text : Str
  originalSubtitle : SubtitleEntry
  chunkIndex : ℕ
  totalChunks : ℕ
  deriving DecidableEq

/-- `breakPriority.indexOf(char)`: index of the one-character string in the
priority list, `-1` when absent. -/
def jsIndexOf (prio : List Str) (c : Char) : ℤ :=
  match prio.findIdx? (· == [c]) with
  | some n => n
  | none => -1

/-- The break-point search of `splitTextIntoChunks`: scan positions
`0 ≤ i < min maxChars remaining.length`, remembering the position of the
first occurrence of the strictly highest priority seen, starting from the
`(-1, -1)` sentinel pair (bestBreakPoint, bestPriority). -/
def bestBreakOf (remaining : Str) (maxChars : ℕ) (prio : List Str) : ℤ × ℤ :=
  (List.range (min maxChars remaining.length)).foldl
    (fun best i =>
      let priority := jsIndexOf prio (remaining.getD i ' ')
      if priority ≠ -1 ∧ priority > best.2 then ((i : ℤ), priority) else best)
    (-1, -1)

/-- The number of characters cut off in one iteration of the splitting
loop: `bestBreakPoint + 1`, where a missing break point falls back to the
hard cut at `maxChars - 1`. -/
def breakLen (remaining : Str) (maxChars : ℕ) (prio : List Str) : ℕ :=
  let found := (bestBreakOf remaining maxChars prio).1
  let bestBreakPoint := if found = -1 then (maxChars : ℤ) - 1 else found
  (bestBreakPoint + 1).toNat

/-- The `while (remainingText.length > 0)` loop of `splitTextIntoChunks`.
The fuel argument is instantiated with the text length, which always
suffices because every iteration consumes at least one character. -/
def splitGoFuel (maxChars : ℕ) (prio : List Str) : ℕ → Str → List Str
  | 0, _ => []
  | fuel + 1, remaining =>
    if remaining.isEmpty then []
    else if remaining.length ≤ maxChars then [remaining]
    else
      remaining.take (breakLen remaining maxChars prio) ::
        splitGoFuel maxChars prio fuel (remaining.drop (breakLen remaining maxChars prio))

/-- `splitTextIntoChunks` of chunk-srt.ts: cut the text at priority break
characters (or hard cuts at `maxChars`), then drop whitespace-only
fragments. -/
def splitTextIntoChunks (text : Str) (maxChars : ℕ) (prio : List Str) : List Str :=
  (splitGoFuel maxChars prio text.length text).filter fun c => !(jsTrim c).isEmpty

/-- The `textChunks.forEach` loop of `chunkSingleSubtitle`: each fragment
gets the common frame duration, and the running start frame advances by
that duration plus the gap. -/
def buildChunks (subtitle : SubtitleEntry) (dur gap : ℤ) (total : ℕ) :
    List Str → ℕ → ℤ → List SubtitleChunk
  | [], _, _ => []
  | t :: ts, ix, cur =>
    ⟨cur, cur + dur, jsTrim t, subtitle, ix, total⟩ ::
      buildChunks subtitle dur gap total ts (ix + 1) (cur + dur + gap)

/-- The final adjustment of `chunkSingleSubtitle`: the last chunk's end
frame is overwritten so the cue ends exactly with the original subtitle. -/
def setLastEnd : List SubtitleChunk → ℤ → List SubtitleChunk
  | [], _ => []
  | [c], e => [{ c with endFrame := e }]
  | c :: c2 :: cs, e => c :: setLastEnd (c2 :: cs) e

/-- `textChunks` of `chunkSingleSubtitle`. -/
def chunkTexts (subtitle : SubtitleEntry) (config : ChunkConfig) : List Str :=
  splitTextIntoChunks (jsTrim subtitle.text) config.maxChars config.wordBreakPriority

/-- `minFrameDuration` of `chunkSingleSubtitle`:
`Math.round(minDuration * fps)`. -/
def minFrameDuration (config : ChunkConfig) : ℤ :=
  jsRound (config.minDuration * config.fps)

/-- `frameDurationPerChunk` of `chunkSingleSubtitle`: the proportional
share `totalDuration / textChunks.length`, in frames, clamped up to the
minimum frame duration. -/
def frameDurationPerChunk (subtitle : SubtitleEntry) (config : ChunkConfig) : ℤ :=
  max
    (jsRound ((subtitle.endTime - subtitle.startTime) /
        ((chunkTexts subtitle config).length : ℚ) * config.fps))
    (minFrameDuration config)

/-- The long-text branch of `chunkSingleSubtitle`: build the fragments with
the common duration and accumulated gaps, then pin the last fragment's end
to the subtitle's end frame.  (When the fragment list is empty the rational
division by zero yields 0 where JavaScript would give Infinity; in that
case no chunk is built, as in the source, so the value is never used.) -/
def chunkLongSubtitle (subtitle : SubtitleEntry) (config : ChunkConfig) : List SubtitleChunk :=
  setLastEnd
    (buildChunks subtitle (frameDurationPerChunk subtitle config) config.gapFrames
      (chunkTexts subtitle config).length (chunkTexts subtitle config) 0
      (jsRound (subtitle.startTime * config.fps)))
    (jsRound (subtitle.endTime * config.fps))

/-- `chunkSingleSubtitle` of chunk-srt.ts. -/
def chunkSingleSubtitle (subtitle : SubtitleEntry) (config : ChunkConfig) : List SubtitleChunk :=
  let text := jsTrim subtitle.text
  if text.length ≤ config.maxChars then
    [⟨jsRound (subtitle.startTime * config.fps), jsRound (subtitle.endTime * config.fps),
      text, subtitle, 0, 1⟩]
  else chunkLongSubtitle subtitle config

/-- `chunkSRT` of chunk-srt.ts. -/
def chunkSRT (subtitles : List SubtitleEntry) (config : ChunkConfig) : List SubtitleChunk :=
  subtitles.flatMap fun subtitle => chunkSingleSubtitle subtitle config

/-- `getActiveChunk` of chunk-srt.ts: first fragment whose inclusive frame
range contains the current frame. -/
def getActiveChunk (chunks : List SubtitleChunk) (currentFrame : ℤ) : Option SubtitleChunk :=
  chunks.find? fun chunk =>
    decide (chunk.startFrame ≤ currentFrame) && decide (currentFrame ≤ chunk.endFrame)

/-! ## Word-mode (karaoke) chunker, karaokeChunker.ts -/

structure ChunkingOptions where
  maxChars : ℕ
  minDuration : ℚ
  fps : ℚ
  gapFrames : ℤ
  deriving DecidableEq

/-- The defaults of `ChunkingOptions`: maxChars 7, minDuration 1.2 s,
30 fps, no gap. -/
def defaultChunkingOptions : ChunkingOptions := ⟨7, 12/10, 30, 0⟩

structure KaraokeChunk where
  start : ℤ
  «end» : ℤ
  text : Str
  originalSubtitleId : ℤ
  chunkIndex : ℕ
  deriving DecidableEq

/-- `item.text.replace(/\n/g, ' ').trim()`. -/
def cleanTextOf (t : Str) : Str :=
  jsTrim (t.map fun c => if c == '\n' then ' ' else c)

/-- `cleanText.split(/\s+/).filter(word => word.length > 0)`. -/
def wordsOf (t : Str) : List Str := tokens (cleanTextOf t)

/-- The word-grouping loop of `chunkSrtForKaraoke`: greedily add words to
the current chunk while the joined text stays within `maxChars`; the final
nonempty chunk is kept (the source pushes it on the last iteration). -/
def groupWordsGo (maxChars : ℕ) : List Str → List Str → List (List Str)
  | currentChunk, [] => if currentChunk.isEmpty then [] else [currentChunk]
  | currentChunk, word :: ws =>
    let testChunk := currentChunk ++ [word]
    if !currentChunk.isEmpty ∧ (joinSpace testChunk).length > maxChars then
      currentChunk :: groupWordsGo maxChars [word] ws
    else groupWordsGo maxChars testChunk ws

def groupWords (maxChars : ℕ) (words : List Str) : List (List Str) :=
  groupWordsGo maxChars [] words

/-- `startTimeSeconds` of chunk number `i` out of `n`:
`item.startTime + i * (totalDurationSeconds / n)`. -/
def karaokeStartSec (item : SubtitleEntry) (n i : ℕ) : ℚ :=
  item.startTime + i * ((item.endTime - item.startTime) / n)

/-- `chunkDuration`: the proportional share clamped up to `minDuration`. -/
def karaokeChunkDuration (item : SubtitleEntry) (n : ℕ) (minDuration : ℚ) : ℚ :=
  max ((item.endTime - item.startTime) / n) minDuration

/-- The per-subtitle part of `chunkSrtForKaraoke`: word chunks are laid out
proportionally, stretched to the minimum duration, converted to frames and
shifted by the accumulated gap. -/
def karaokeChunksForItem (item : SubtitleEntry) (itemIndex : ℕ)
    (opts : ChunkingOptions) : List KaraokeChunk :=
  let words := wordsOf item.text
  let wordChunks := groupWords opts.maxChars words
  wordChunks.mapIdx fun chunkIndex wordChunk =>
    let startTimeSeconds := karaokeStartSec item wordChunks.length chunkIndex
    let endTimeSeconds :=
      startTimeSeconds + karaokeChunkDuration item wordChunks.length opts.minDuration
    { start := jsRound (startTimeSeconds * opts.fps) + chunkIndex * opts.gapFrames,
      «end» := jsRound (endTimeSeconds * opts.fps) + chunkIndex * opts.gapFrames,
      text := joinSpace wordChunk,
      originalSubtitleId := (itemIndex : ℤ) + 1,
      chunkIndex := chunkIndex }

/-- `chunkSrtForKaraoke` of karaokeChunker.ts.  A subtitle is skipped when
any of `startTime`, `endTime`, `text` is falsy (zero time or empty text) or
when it has no valid words. -/
def chunkSrtForKaraoke (srtContent : Str) (opts : ChunkingOptions) : List KaraokeChunk :=
  (parseSRT srtContent).enum.flatMap fun p =>
    let itemIndex := p.1
    let item := p.2
    if item.startTime == 0 || item.endTime == 0 || item.text.isEmpty then []
    else if (wordsOf item.text).isEmpty then []
    else karaokeChunksForItem item itemIndex opts

/-- `getActiveChunks` of karaokeChunker.ts. -/
def getActiveChunks (chunks : List KaraokeChunk) (frame : ℤ) : List KaraokeChunk :=
  chunks.filter fun chunk =>
    decide (chunk.start ≤ frame) && decide (frame ≤ chunk.«end»)

/-- `getCurrentChunk` of karaokeChunker.ts. -/
def getCurrentChunk (chunks : List KaraokeChunk) (frame : ℤ) : Option KaraokeChunk :=
  (getActiveChunks chunks frame).head?

/-! ## Timeline resolver, segmentedPromptsParser.ts -/

inductive LayoutType where
  | center
  | bottom
  | circle
  deriving DecidableEq

structure SegTiming where
  start_time : ℚ
  end_time : ℚ
  duration : ℚ
  deriving DecidableEq

structure Segment where
  segment_number : ℕ
  timing : SegTiming
  editing_suggestion : String
  adapted_prompt : String
  deriving DecidableEq

structure Segmentation where
  needs_segmentation : Bool
  segments : Option (List Segment)
  deriving DecidableEq

structure Phrase where
  phrase_number : ℕ
  phrase : String
  editing_suggestion : String
  video_prompt : Option String
  timing : SegTiming
  segmentation : Segmentation
  deriving DecidableEq

structure Analysis where
  phrases_with_video_prompts : List Phrase
  deriving DecidableEq

structure SegmentedPromptsData where
  analysis : Analysis
  deriving DecidableEq

structure TimelineSegment where
  startTime : ℚ
  endTime : ℚ
  duration : ℚ
  layout : LayoutType
  editingSuggestion : String
  phraseNumber : ℕ
  segmentNumber : Option ℕ
  phrase : String
  videoPrompt : Option String
  adaptedPrompt : Option String
  deriving DecidableEq

/-- `getLayoutFromEditingSuggestion`: fixed total mapping, defaulting to
center for unknown labels. -/
def getLayoutFromEditingSuggestion (editingSuggestion : String) : LayoutType :=
  if editingSuggestion = "Video only on screen" then .circle
  else if editingSuggestion = "Narrator and video split screen" then .bottom
  else if editingSuggestion = "Narrator only on screen" then .center
  else .center

/-- The `forEach` emission loop of `parseSegmentedPrompts`, before
sorting: segmented phrases (with a present segments array) contribute one
record per child segment, the rest contribute their own range. -/
def emitTimeline (data : SegmentedPromptsData) : List TimelineSegment :=
  data.analysis.phrases_with_video_prompts.flatMap fun phrase =>
    match phrase.segmentation.needs_segmentation, phrase.segmentation.segments with
    | true, some segments =>
      segments.map fun segment =>
        { startTime := segment.timing.start_time,
          endTime := segment.timing.end_time,
          duration := segment.timing.duration,
          layout := getLayoutFromEditingSuggestion segment.editing_suggestion,
          editingSuggestion := segment.editing_suggestion,
          phraseNumber := phrase.phrase_number,
          segmentNumber := some segment.segment_number,
          phrase := phrase.phrase,
          videoPrompt := phrase.video_prompt,
          adaptedPrompt := some segment.adapted_prompt }
    | _, _ =>
      [{ startTime := phrase.timing.start_time,
         endTime := phrase.timing.end_time,
         duration := phrase.timing.duration,
         layout := getLayoutFromEditingSuggestion phrase.editing_suggestion,
         editingSuggestion := phrase.editing_suggestion,
         phraseNumber := phrase.phrase_number,
         segmentNumber := none,
         phrase := phrase.phrase,
         videoPrompt := phrase.video_prompt,
         adaptedPrompt := none }]

/-- Insertion step of the stable sort: a new element goes after every
already-placed element whose start time is less than or equal to its own,
so elements with equal start times keep their original order. -/
def insertByStart (x : TimelineSegment) : List TimelineSegment → List TimelineSegment
  | [] => [x]
  | y :: ys =>
    if y.startTime ≤ x.startTime then y :: insertByStart x ys else x :: y :: ys

/-- `timeline.sort((a, b) => a.startTime - b.startTime)`:
`Array.prototype.sort` is stable and orders by the comparator, here by
start time; modelled as a left-fold insertion sort, which computes exactly
the stable sort by start time. -/
def jsSortByStartTime (timeline : List TimelineSegment) : List TimelineSegment :=
  timeline.foldl (fun acc x => insertByStart x acc) []

/-- `parseSegmentedPrompts` of segmentedPromptsParser.ts. -/
def parseSegmentedPrompts (data : SegmentedPromptsData) : List TimelineSegment :=
  jsSortByStartTime (emitTimeline data)

/-- `getActiveSegment` of segmentedPromptsParser.ts: first segment (in list
order) whose inclusive `[startTime, endTime]` range contains the time. -/
def getActiveSegment (timeline : List TimelineSegment) (currentTime : ℚ) :
    Option TimelineSegment :=
  timeline.find? fun segment =>
    decide (segment.startTime ≤ currentTime) && decide (currentTime ≤ segment.endTime)

/-- `SequencedVideo`'s layout selection:
`activeSegment?.layout || 'center'`. -/
def currentLayoutOf (timeline : List TimelineSegment) (currentTime : ℚ) : LayoutType :=
  match getActiveSegment timeline currentTime with
  | none => .center
  | some segment => segment.layout

/-! ## Subtitle renderer opacity, SubtitleRenderer.tsx -/

/-- Remotion `interpolate` with `extrapolateLeft/Right: 'clamp'`: the input
progress is clamped into the unit interval, passed through the easing map,
and scaled to the output range. -/
def clamp01 (q : ℚ) : ℚ := min 1 (max 0 q)

def interpolateClamped (easing : ℚ → ℚ) (frame a b o1 o2 : ℚ) : ℚ :=
  o1 + easing (clamp01 ((frame - a) / (b - a))) * (o2 - o1)

/-- `Math.round(config.animations.duration * fps)`. -/
def animationDurationFrames (durationSeconds fps : ℚ) : ℤ :=
  jsRound (durationSeconds * fps)

/-- The fade-in curve of `SubtitleRenderer`: 0 to 1 over the first
`animationDurationFrames` frames of the chunk window. -/
def fadeInProgress (easing : ℚ → ℚ) (startFrame d frame : ℤ) : ℚ :=
  interpolateClamped easing frame startFrame (startFrame + d) 0 1

/-- The fade-out curve of `SubtitleRenderer`: 1 to 0 over the last
`animationDurationFrames` frames of the chunk window. -/
def fadeOutProgress (easing : ℚ → ℚ) (endFrame d frame : ℤ) : ℚ :=
  interpolateClamped easing frame (endFrame - d) endFrame 1 0

/-- `const opacity = Math.min(fadeInProgress, fadeOutProgress)`. -/
def subtitleOpacity (easing : ℚ → ℚ) (startFrame endFrame d frame : ℤ) : ℚ :=
  min (fadeInProgress easing startFrame d frame) (fadeOutProgress easing endFrame d frame)

/-! ## Duration estimators -/

/-- `calculateDurationFromSubtitles` of dynamicLoader.ts: end of the last
subtitle in list order plus one second of buffer, rounded up to frames;
690 frames when there are no subtitles. -/
def calculateDurationFromSubtitles (subtitles : List SubtitleEntry) (fps : ℚ) : ℤ :=
  match subtitles.getLast? with
  | none => 690
  | some lastSubtitle => jsCeil ((lastSubtitle.endTime + 1) * fps)

/-- The computation performed by `calculateVideoDuration` of
durationCalculator.ts after the fetched file has been parsed: end of the
last subtitle plus two seconds of buffer; 690 frames for no subtitles. -/
def calculateVideoDurationCore (subtitles : List SubtitleEntry) (fps : ℚ) : ℤ :=
  match subtitles.getLast? with
  | none => 690
  | some lastSubtitle => jsCeil ((lastSubtitle.endTime + 2) * fps)

/-- The furthest-reaching end time over a cue list. -/
def maxEndTime (subtitles : List SubtitleEntry) : Option ℚ :=
  (subtitles.map (·.endTime)).max?

/-! ## Structural lemmas about the character-mode chunk construction -/

theorem buildChunks_length (sub : SubtitleEntry) (dur gap : ℤ) (total : ℕ)
    (texts : List Str) (ix : ℕ) (cur : ℤ) :
    (buildChunks sub dur gap total texts ix cur).length = texts.length := by
  induction texts generalizing ix cur with
  | nil => rfl
  | cons t ts ih => simp [buildChunks, ih]

theorem buildChunks_get (sub : SubtitleEntry) (dur gap : ℤ) (total : ℕ)
    (texts : List Str) (ix : ℕ) (cur : ℤ) (i : ℕ) (h : i < texts.length) :
    (buildChunks sub dur gap total texts ix cur).get
        ⟨i, by rw [buildChunks_length]; exact h⟩ =
      ⟨cur + i * (dur + gap), cur + i * (dur + gap) + dur,
        jsTrim (texts.get ⟨i, h⟩), sub, ix + i, total⟩ := by
  induction texts generalizing ix cur i with
  | nil => exact absurd h (by simp)
  | cons t ts ih =>
    match i with
    | 0 => simp [buildChunks]
    | i + 1 =>
      have h2 : i < ts.length := by simpa using h
      have := ih (ix + 1) (cur + dur + gap) i h2
      simp only [buildChunks, List.get_cons_succ, this, SubtitleChunk.mk.injEq]
      refine ⟨by push_cast; ring, by push_cast; ring, trivial, trivial, by omega, trivial⟩

theorem setLastEnd_length (l : List SubtitleChunk) (e : ℤ) :
    (setLastEnd l e).length = l.length := by
  induction l with
  | nil => rfl
  | cons c cs ih =>
    match cs with
    | [] => rfl
    | c2 :: cs2 => simpa [setLastEnd] using ih

theorem setLastEnd_get_of_lt (l : List SubtitleChunk) (e : ℤ) (i : ℕ)
    (h : i + 1 < l.length) :
    (setLastEnd l e).get ⟨i, by rw [setLastEnd_length]; omega⟩ =
      l.get ⟨i, by omega⟩ := by
  induction l generalizing i with
  | nil => exact absurd h (by simp)
  | cons c cs ih =>
    match cs with
    | [] => simp at h
    | c2 :: cs2 =>
      match i with
      | 0 => rfl
      | i + 1 =>
        have h2 : i + 1 < (c2 :: cs2).length := by simpa using h
        simpa [setLastEnd] using ih i h2

theorem setLastEnd_get_last (l : List SubtitleChunk) (e : ℤ) (h : 0 < l.length) :
    (setLastEnd l e).get ⟨l.length - 1, by rw [setLastEnd_length]; omega⟩ =
      { l.get ⟨l.length - 1, by omega⟩ with endFrame := e } := by
  induction l with
  | nil => simp at h
  | cons c cs ih =>
    match cs with
    | [] => rfl
    | c2 :: cs2 =>
      have h2 : 0 < (c2 :: cs2).length := by simp
      have := ih h2
      have hlen : (c :: c2 :: cs2).length - 1 = ((c2 :: cs2).length - 1) + 1 := by
        simp
      simp only [setLastEnd, hlen, List.get_cons_succ, this]

theorem setLastEnd_head?_start (l : List SubtitleChunk) (e : ℤ) :
    (setLastEnd l e).head?.map (·.startFrame) = l.head?.map (·.startFrame) := by
  match l with
  | [] => rfl
  | [c] => rfl
  | c :: c2 :: cs => rfl

theorem setLastEnd_cons_cons (c c2 : SubtitleChunk) (cs : List SubtitleChunk) (e : ℤ) :
    setLastEnd (c :: c2 :: cs) e = c :: setLastEnd (c2 :: cs) e := rfl

theorem setLastEnd_ne_nil (l : List SubtitleChunk) (e : ℤ) (h : l ≠ []) :
    setLastEnd l e ≠ [] := by
  intro hc
  have := setLastEnd_length l e
  rw [hc] at this
  exact h (List.length_eq_zero.mp this.symm)

theorem setLastEnd_getLast?_end (l : List SubtitleChunk) (e : ℤ) (h : l ≠ []) :
    (setLastEnd l e).getLast?.map (·.endFrame) = some e := by
  induction l with
  | nil => exact absurd rfl h
  | cons c cs ih =>
    match cs with
    | [] => rfl
    | c2 :: cs2 =>
      rw [setLastEnd_cons_cons]
      obtain ⟨x, xs, hx⟩ := List.exists_cons_of_ne_nil (setLastEnd_ne_nil (c2 :: cs2) e (by simp))
      rw [hx, List.getLast?_cons_cons, ← hx]
      exact ih (by simp)

theorem setLastEnd_dropLast (l : List SubtitleChunk) (e : ℤ) :
    (setLastEnd l e).dropLast = l.dropLast := by
  induction l with
  | nil => rfl
  | cons c cs ih =>
    match cs with
    | [] => rfl
    | c2 :: cs2 =>
      rw [setLastEnd_cons_cons]
      obtain ⟨x, xs, hx⟩ := List.exists_cons_of_ne_nil (setLastEnd_ne_nil (c2 :: cs2) e (by simp))
      rw [hx, List.dropLast_cons₂, ← hx, ih, List.dropLast_cons₂]

theorem setLastEnd_mem (l : List SubtitleChunk) (e : ℤ) :
    ∀ c ∈ setLastEnd l e, ∃ x ∈ l, c = x ∨ c = { x with endFrame := e } := by
  induction l with
  | nil => simp [setLastEnd]
  | cons c0 cs ih =>
    match cs with
    | [] =>
      intro c hc
      simp only [setLastEnd, List.mem_singleton] at hc
      exact ⟨c0, by simp, Or.inr hc⟩
    | c2 :: cs2 =>
      intro c hc
      rw [setLastEnd_cons_cons, List.mem_cons] at hc
      rcases hc with rfl | hc
      · exact ⟨c, by simp, Or.inl rfl⟩
      · obtain ⟨x, hx, hor⟩ := ih c hc
        exact ⟨x, by simp [hx], hor⟩

theorem buildChunks_duration (sub : SubtitleEntry) (dur gap : ℤ) (total : ℕ)
    (texts : List Str) (ix : ℕ) (cur : ℤ) :
    ∀ c ∈ buildChunks sub dur gap total texts ix cur,
      c.endFrame = c.startFrame + dur := by
  induction texts generalizing ix cur with
  | nil => simp [buildChunks]
  | cons t ts ih =>
    intro c hc
    rw [buildChunks, List.mem_cons] at hc
    rcases hc with rfl | hc
    · rfl
    · exact ih _ _ c hc

theorem buildChunks_start_lb (sub : SubtitleEntry) (dur gap : ℤ) (total : ℕ)
    (texts : List Str) (ix : ℕ) (cur : ℤ) (h : 0 ≤ dur + gap) :
    ∀ c ∈ buildChunks sub dur gap total texts ix cur, cur ≤ c.startFrame := by
  induction texts generalizing ix cur with
  | nil => simp [buildChunks]
  | cons t ts ih =>
    intro c hc
    rw [buildChunks, List.mem_cons] at hc
    rcases hc with rfl | hc
    · simp
    · have := ih (ix + 1) (cur + dur + gap) c hc
      omega

theorem buildChunks_pairwise (sub : SubtitleEntry) (dur gap : ℤ) (total : ℕ)
    (texts : List Str) (ix : ℕ) (cur : ℤ) (hd : 0 ≤ dur) (hg : 1 ≤ gap) :
    (buildChunks sub dur gap total texts ix cur).Pairwise
      (fun c1 c2 => c1.endFrame < c2.startFrame) := by
  induction texts generalizing ix cur with
  | nil => simp [buildChunks]
  | cons t ts ih =>
    rw [buildChunks, List.pairwise_cons]
    refine ⟨fun c hc => ?_, ih _ _⟩
    have := buildChunks_start_lb sub dur gap total ts (ix + 1) (cur + dur + gap)
      (by omega) c hc
    simp only
    omega

theorem setLastEnd_pairwise (l : List SubtitleChunk) (e : ℤ)
    (h : l.Pairwise fun c1 c2 => c1.endFrame < c2.startFrame) :
    (setLastEnd l e).Pairwise fun c1 c2 => c1.endFrame < c2.startFrame := by
  induction l with
  | nil => simp [setLastEnd]
  | cons c cs ih =>
    match cs with
    | [] => simp [setLastEnd]
    | c2 :: cs2 =>
      rw [List.pairwise_cons] at h
      rw [setLastEnd_cons_cons, List.pairwise_cons]
      refine ⟨fun y hy => ?_, ih h.2⟩
      obtain ⟨x, hx, hor⟩ := setLastEnd_mem (c2 :: cs2) e y hy
      have := h.1 x hx
      rcases hor with rfl | rfl
      · exact this
      · exact this

theorem jsRound_nonneg (q : ℚ) (h : 0 ≤ q) : 0 ≤ jsRound q := by
  rw [jsRound, Int.le_floor]
  push_cast
  linarith

theorem jsRound_add_floor_le (x y : ℚ) : jsRound x + ⌊y⌋ ≤ jsRound (x + y) := by
  rw [jsRound, jsRound, Int.le_floor]
  push_cast
  have h1 : (⌊x + 1/2⌋ : ℚ) ≤ x + 1/2 := Int.floor_le _
  have h2 : (⌊y⌋ : ℚ) ≤ y := Int.floor_le _
  linarith

theorem joinSpace_cons_of_ne (w : Str) (ws : List Str) (h : ws ≠ []) :
    joinSpace (w :: ws) = w ++ ' ' :: joinSpace ws := by
  match ws with
  | [] => exact absurd rfl h
  | w2 :: ws2 => rfl

theorem joinSpace_length_le_append (a b : List Str) :
    (joinSpace a).length ≤ (joinSpace (a ++ b)).length := by
  induction a with
  | nil => simp [joinSpace]
  | cons x a2 ih =>
    match a2 with
    | [] =>
      match b with
      | [] => simp
      | y :: b2 => simp [joinSpace, joinSpace_cons_of_ne]
    | z :: a3 =>
      have h1 : (z :: a3) ++ b ≠ [] := by simp
      rw [List.cons_append, joinSpace_cons_of_ne x (z :: a3) (by simp),
        joinSpace_cons_of_ne x ((z :: a3) ++ b) h1]
      simpa using ih

theorem isEmpty_false_of_ne_nil {α : Type} {l : List α} (h : l ≠ []) :
    l.isEmpty = false := by
  cases l with
  | nil => exact absurd rfl h
  | cons a t => rfl

theorem tokensGo_joinSpace_length (l acc : Str) :
    (joinSpace (tokensGo acc l)).length ≤ acc.length + l.length := by
  induction l generalizing acc with
  | nil =>
    by_cases h : acc.isEmpty = true
    · rw [tokensGo, if_pos h]; simp [joinSpace]
    · rw [tokensGo, if_neg h]; simp [joinSpace]
  | cons c r ih =>
    by_cases hw : jsIsWs c = true
    · by_cases h : acc.isEmpty = true
      · rw [tokensGo, if_pos hw, if_pos h]
        have := ih []
        simp only [List.length_nil, zero_add] at this
        simp only [List.length_cons]
        omega
      · rw [tokensGo, if_pos hw, if_neg h]
        match hrest : tokensGo [] r with
        | [] =>
          simp only [joinSpace, List.length_reverse, List.length_cons]
          omega
        | t :: ts =>
          rw [joinSpace_cons_of_ne _ _ (by simp)]
          have := ih []
          rw [hrest] at this
          simp only [List.length_nil, zero_add] at this
          simp only [List.length_append, List.length_cons, List.length_reverse]
          omega
    · rw [tokensGo, if_neg hw]
      have := ih (c :: acc)
      simp only [List.length_cons] at this ⊢
      omega

theorem tokens_joinSpace_length_le (s : Str) :
    (joinSpace (tokens s)).length ≤ s.length := by
  simpa [tokens] using tokensGo_joinSpace_length s []

theorem groupWordsGo_all (maxChars : ℕ) (ws current : List Str)
    (hne : ¬(current = [] ∧ ws = []))
    (hlen : (joinSpace (current ++ ws)).length ≤ maxChars) :
    groupWordsGo maxChars current ws = [current ++ ws] := by
  induction ws generalizing current with
  | nil =>
    have hcur : current ≠ [] := fun h => hne ⟨h, rfl⟩
    simp [groupWordsGo, isEmpty_false_of_ne_nil hcur]
  | cons w ws2 ih =>
    have hle : (joinSpace (current ++ [w])).length ≤ maxChars := by
      calc (joinSpace (current ++ [w])).length
        ≤ (joinSpace ((current ++ [w]) ++ ws2)).length := joinSpace_length_le_append _ _
        _ ≤ maxChars := by simpa [List.append_assoc] using hlen
    have hcond : ¬(!current.isEmpty ∧ (joinSpace (current ++ [w])).length > maxChars) := by
      rintro ⟨-, h2⟩; omega
    rw [groupWordsGo, if_neg hcond]
    have := ih (current ++ [w]) (by simp) (by simpa [List.append_assoc] using hlen)
    simpa [List.append_assoc] using this

theorem groupWordsGo_ne_nil (maxChars : ℕ) (ws current : List Str)
    (hne : ¬(current = [] ∧ ws = [])) :
    groupWordsGo maxChars current ws ≠ [] := by
  induction ws generalizing current with
  | nil =>
    have hcur : current ≠ [] := fun h => hne ⟨h, rfl⟩
    simp [groupWordsGo, isEmpty_false_of_ne_nil hcur]
  | cons w ws2 ih =>
    rw [groupWordsGo]
    by_cases hcond : !current.isEmpty ∧ (joinSpace (current ++ [w])).length > maxChars
    · simp [hcond]
    · rw [if_neg hcond]
      exact ih (current ++ [w]) (by simp)

theorem setLastEnd_get_startFrame (l : List SubtitleChunk) (e : ℤ) (i : ℕ)
    (h : i < l.length) :
    ((setLastEnd l e).get ⟨i, by rw [setLastEnd_length]; exact h⟩).startFrame =
      (l.get ⟨i, h⟩).startFrame := by
  induction l generalizing i with
  | nil => exact absurd h (by simp)
  | cons c cs ih =>
    match cs with
    | [] =>
      match i with
      | 0 => rfl
    | c2 :: cs2 =>
      match i with
      | 0 => rfl
      | i + 1 =>
        have h2 : i < (c2 :: cs2).length := by simpa using h
        simpa [setLastEnd] using ih i h2


theorem chunkLongSubtitle_length (sub : SubtitleEntry) (cfg : ChunkConfig) :
    (chunkLongSubtitle sub cfg).length = (chunkTexts sub cfg).length := by
  rw [chunkLongSubtitle, setLastEnd_length, buildChunks_length]

/-! ## Claim C1 -/

/-- A cue from 1 s to 2 s whose text splits into two word chunks under the
default karaoke options. -/
def cexKaraokeSrt : Str := "1\n00:00:01,000 --> 00:00:02,000\nhello world".data

/-- C1 counterexample: for the word-chunking entry point
`chunkSrtForKaraoke`, the cue [1 s, 2 s] "hello world" with the default
options (maxChars 7, minDuration 1.2 s, 30 fps, no gap) is split into two
chunks, and the last chunk ends at frame 81, not at the cue's end frame
round(2*30) = 60: the karaoke chunker never overrides the drift introduced
by minimum-duration stretching. -/
theorem karaoke_last_end_not_pinned_cex :
    parseSRT cexKaraokeSrt =
      [⟨1, parseTimeQ (0, 0, 1, 0), parseTimeQ (0, 0, 2, 0), "hello world".data⟩]
    ∧ (chunkSrtForKaraoke cexKaraokeSrt defaultChunkingOptions).map
        (fun c => (c.chunkIndex, c.start, c.«end»)) = [(0, 30, 66), (1, 45, 81)]
    ∧ jsRound (parseTimeQ (0, 0, 2, 0) * defaultChunkingOptions.fps) = 60
    ∧ (81 : ℤ) ≠ 60 := by
  refine ⟨rfl, ?_, by norm_num [parseTimeQ, jsRound, defaultChunkingOptions], by norm_num⟩
  have h1 : parseSRT cexKaraokeSrt =
      [⟨1, parseTimeQ (0, 0, 1, 0), parseTimeQ (0, 0, 2, 0), "hello world".data⟩] := rfl
  have h2 : tokens (cleanTextOf "hello world".data) = ["hello".data, "world".data] := rfl
  have h3 : groupWords 7 ["hello".data, "world".data] = [["hello".data], ["world".data]] := rfl
  rw [chunkSrtForKaraoke, h1]
  norm_num [parseTimeQ, List.enum, karaokeChunksForItem, wordsOf, defaultChunkingOptions,
    h2, h3, karaokeStartSec, karaokeChunkDuration, jsRound, List.mapIdx_cons, List.mapIdx_nil,
    List.cons_ne_nil]

/-- C1 (amended): in the character-chunking entry point
(`chunkSingleSubtitle`) a cue split into two or more chunks has its first
chunk's start frame pinned to round(startTime*fps) and its last chunk's end
frame pinned to round(endTime*fps); in the word-chunking entry point
(`chunkSrtForKaraoke`, per-cue computation `karaokeChunksForItem`) only the
first chunk's start frame is pinned to round(startTime*fps), while the last
chunk's end frame may drift away from the cue's end frame under
minimum-duration stretching or gap accumulation. -/
theorem chunk_boundaries_amended (sub : SubtitleEntry) (cfg : ChunkConfig)
    (item : SubtitleEntry) (idx : ℕ) (opts : ChunkingOptions)
    (h2 : 2 ≤ (chunkSingleSubtitle sub cfg).length)
    (hw : wordsOf item.text ≠ []) :
    (chunkSingleSubtitle sub cfg).head?.map (·.startFrame) =
      some (jsRound (sub.startTime * cfg.fps))
    ∧ (chunkSingleSubtitle sub cfg).getLast?.map (·.endFrame) =
      some (jsRound (sub.endTime * cfg.fps))
    ∧ (karaokeChunksForItem item idx opts).head?.map (·.start) =
      some (jsRound (item.startTime * opts.fps)) := by
  have hkar : (karaokeChunksForItem item idx opts).head?.map (·.start) =
      some (jsRound (item.startTime * opts.fps)) := by
    have hne : groupWords opts.maxChars (wordsOf item.text) ≠ [] :=
      groupWordsGo_ne_nil opts.maxChars (wordsOf item.text) [] (fun h => hw h.2)
    obtain ⟨w, rest, hwc⟩ := List.exists_cons_of_ne_nil hne
    simp only [karaokeChunksForItem, hwc, List.mapIdx_cons, List.head?_cons, Option.map_some']
    simp [karaokeStartSec]
  by_cases hb : (jsTrim sub.text).length ≤ cfg.maxChars
  · simp only [chunkSingleSubtitle, if_pos hb, List.length_singleton] at h2
    omega
  · have he : chunkSingleSubtitle sub cfg = chunkLongSubtitle sub cfg := by
      simp only [chunkSingleSubtitle]
      rw [if_neg hb]
    rw [he] at h2 ⊢
    have hlen := chunkLongSubtitle_length sub cfg
    have htne : chunkTexts sub cfg ≠ [] := by
      intro hnil
      rw [hlen, hnil] at h2
      simp at h2
    obtain ⟨t, ts, hts⟩ := List.exists_cons_of_ne_nil htne
    have hbne : buildChunks sub (frameDurationPerChunk sub cfg) cfg.gapFrames
        (chunkTexts sub cfg).length (chunkTexts sub cfg) 0
        (jsRound (sub.startTime * cfg.fps)) ≠ [] := by
      intro hnil
      have := buildChunks_length sub (frameDurationPerChunk sub cfg) cfg.gapFrames
        (chunkTexts sub cfg).length (chunkTexts sub cfg) 0
        (jsRound (sub.startTime * cfg.fps))
      rw [hnil, hts] at this
      simp at this
    refine ⟨?_, ?_, hkar⟩
    · rw [chunkLongSubtitle, setLastEnd_head?_start, hts, buildChunks]
      rfl
    · rw [chunkLongSubtitle, setLastEnd_getLast?_end _ _ hbne]

/-- Witness inputs for the chunk-boundary theorem. -/
def wSub1 : SubtitleEntry := ⟨1, 0, 1, "abcd".data⟩

def wCfg1 : ChunkConfig := ⟨2, 1/10, 30, 0, []⟩

def wItem1 : SubtitleEntry := ⟨1, 1, 2, "hi there".data⟩

/-- Witness for the amended C1 theorem at a concrete cue split into two
character chunks and a concrete karaoke cue. -/
theorem chunk_boundaries_amended_witness :
    2 ≤ (chunkSingleSubtitle wSub1 wCfg1).length
    ∧ wordsOf wItem1.text ≠ []
    ∧ ((chunkSingleSubtitle wSub1 wCfg1).head?.map (·.startFrame) =
        some (jsRound (wSub1.startTime * wCfg1.fps))
      ∧ (chunkSingleSubtitle wSub1 wCfg1).getLast?.map (·.endFrame) =
        some (jsRound (wSub1.endTime * wCfg1.fps))
      ∧ (karaokeChunksForItem wItem1 0 defaultChunkingOptions).head?.map (·.start) =
        some (jsRound (wItem1.startTime * defaultChunkingOptions.fps))) :=
  ⟨by decide, by decide,
    chunk_boundaries_amended wSub1 wCfg1 wItem1 0 defaultChunkingOptions
      (by decide) (by decide)⟩

/-! ## Claim C2 -/

/-- A cue of 0.2 s whose text splits into two character chunks. -/
def cexSub2 : SubtitleEntry := ⟨1, 0, 1/5, "abcd".data⟩

/-- maxChars 2, minDuration 0.11 s, 30 fps, no gap. -/
def cexCfg2 : ChunkConfig := ⟨2, 11/100, 30, 0, []⟩

/-- C2 counterexample: with minDuration = 0.11 s at 30 fps the minimum
frame duration rounds to 3 frames = 0.1 s, so the first chunk of the cue
(a chunk that is not subject to the last-chunk override) lasts 0.1 s in
seconds, strictly less than minDuration: frame quantisation can compress
every chunk below `minDuration`. -/
theorem chunk_below_min_duration_cex :
    (chunkSingleSubtitle cexSub2 cexCfg2).map (fun c => (c.startFrame, c.endFrame)) =
      [(0, 3), (3, 6)]
    ∧ ((3 : ℚ) - 0) / cexCfg2.fps < cexCfg2.minDuration := by
  constructor
  · have ht : jsTrim "abcd".data = "abcd".data := rfl
    have h2 : splitTextIntoChunks "abcd".data 2 [] = ["ab".data, "cd".data] := rfl
    norm_num [chunkSingleSubtitle, chunkLongSubtitle, chunkTexts, frameDurationPerChunk,
      minFrameDuration, cexSub2, cexCfg2, ht, h2, buildChunks, setLastEnd, jsRound]
  · norm_num [cexCfg2]

/-- C2 (amended): in character mode every chunk except the last lasts at
least `minFrameDuration = round(minDuration*fps)` frames (the per-chunk
share is clamped upward, never compressed below the frame-quantised
minimum), and the last chunk's end frame is still overridden to the cue's
end frame even when that makes it shorter; in karaoke mode the per-chunk
duration in seconds is clamped up to at least `minDuration`, so every
emitted chunk lasts at least `⌊minDuration*fps⌋` frames. -/
theorem chunk_min_duration_amended (sub : SubtitleEntry) (cfg : ChunkConfig)
    (item : SubtitleEntry) (idx : ℕ) (opts : ChunkingOptions)
    (hfps : 0 ≤ opts.fps) (h1 : 1 ≤ (chunkSingleSubtitle sub cfg).length) :
    (∀ c ∈ (chunkSingleSubtitle sub cfg).dropLast,
        minFrameDuration cfg ≤ c.endFrame - c.startFrame)
    ∧ (chunkSingleSubtitle sub cfg).getLast?.map (·.endFrame) =
        some (jsRound (sub.endTime * cfg.fps))
    ∧ opts.minDuration ≤
        karaokeChunkDuration item (groupWords opts.maxChars (wordsOf item.text)).length
          opts.minDuration
    ∧ ∀ c ∈ karaokeChunksForItem item idx opts,
        ⌊opts.minDuration * opts.fps⌋ ≤ c.«end» - c.start := by
  have hkar : ∀ c ∈ karaokeChunksForItem item idx opts,
      ⌊opts.minDuration * opts.fps⌋ ≤ c.«end» - c.start := by
    intro c hc
    rw [karaokeChunksForItem, List.mem_mapIdx] at hc
    obtain ⟨i, hi, hc⟩ := hc
    subst hc
    simp only
    have hdur : opts.minDuration ≤
        karaokeChunkDuration item (groupWords opts.maxChars (wordsOf item.text)).length
          opts.minDuration := le_max_right _ _
    set n := (groupWords opts.maxChars (wordsOf item.text)).length
    set s := karaokeStartSec item n i
    set d := karaokeChunkDuration item n opts.minDuration
    have hsplit : (s + d) * opts.fps = s * opts.fps + d * opts.fps := by ring
    have h2 := jsRound_add_floor_le (s * opts.fps) (d * opts.fps)
    have h3 : ⌊opts.minDuration * opts.fps⌋ ≤ ⌊d * opts.fps⌋ :=
      Int.floor_le_floor (mul_le_mul_of_nonneg_right hdur hfps)
    rw [hsplit]
    omega
  have hshare : opts.minDuration ≤
      karaokeChunkDuration item (groupWords opts.maxChars (wordsOf item.text)).length
        opts.minDuration := le_max_right _ _
  by_cases hb : (jsTrim sub.text).length ≤ cfg.maxChars
  · refine ⟨?_, ?_, hshare, hkar⟩
    · simp [chunkSingleSubtitle, if_pos hb]
    · simp [chunkSingleSubtitle, if_pos hb]
  · have he : chunkSingleSubtitle sub cfg = chunkLongSubtitle sub cfg := by
      simp only [chunkSingleSubtitle]
      rw [if_neg hb]
    rw [he] at h1 ⊢
    have hbne : buildChunks sub (frameDurationPerChunk sub cfg) cfg.gapFrames
        (chunkTexts sub cfg).length (chunkTexts sub cfg) 0
        (jsRound (sub.startTime * cfg.fps)) ≠ [] := by
      intro hnil
      rw [chunkLongSubtitle_length] at h1
      have := buildChunks_length sub (frameDurationPerChunk sub cfg) cfg.gapFrames
        (chunkTexts sub cfg).length (chunkTexts sub cfg) 0
        (jsRound (sub.startTime * cfg.fps))
      rw [hnil] at this
      simp only [List.length_nil] at this
      omega
    refine ⟨?_, ?_, hshare, hkar⟩
    · intro c hc
      rw [chunkLongSubtitle, setLastEnd_dropLast] at hc
      have hmem := (List.dropLast_sublist _).subset hc
      have hd := buildChunks_duration sub (frameDurationPerChunk sub cfg) cfg.gapFrames
        (chunkTexts sub cfg).length (chunkTexts sub cfg) 0
        (jsRound (sub.startTime * cfg.fps)) c hmem
      have : minFrameDuration cfg ≤ frameDurationPerChunk sub cfg := le_max_right _ _
      omega
    · rw [chunkLongSubtitle, setLastEnd_getLast?_end _ _ hbne]

/-- Witness for the amended C2 theorem. -/
theorem chunk_min_duration_amended_witness :
    (0 : ℚ) ≤ defaultChunkingOptions.fps
    ∧ 1 ≤ (chunkSingleSubtitle wSub1 wCfg1).length
    ∧ ((∀ c ∈ (chunkSingleSubtitle wSub1 wCfg1).dropLast,
        minFrameDuration wCfg1 ≤ c.endFrame - c.startFrame)
      ∧ (chunkSingleSubtitle wSub1 wCfg1).getLast?.map (·.endFrame) =
        some (jsRound (wSub1.endTime * wCfg1.fps))
      ∧ defaultChunkingOptions.minDuration ≤
        karaokeChunkDuration wItem1
          (groupWords defaultChunkingOptions.maxChars (wordsOf wItem1.text)).length
          defaultChunkingOptions.minDuration
      ∧ ∀ c ∈ karaokeChunksForItem wItem1 0 defaultChunkingOptions,
          ⌊defaultChunkingOptions.minDuration * defaultChunkingOptions.fps⌋ ≤
            c.«end» - c.start) :=
  ⟨by norm_num [defaultChunkingOptions], by decide,
    chunk_min_duration_amended wSub1 wCfg1 wItem1 0 defaultChunkingOptions
      (by norm_num [defaultChunkingOptions]) (by decide)⟩

/-! ## Claim C3 -/

/-- A 0.5 s cue with short text under the default karaoke options. -/
def cexSrt3 : Str := "1\n00:00:01,000 --> 00:00:01,500\nhi".data

/-- C3 counterexample: the cue [1 s, 1.5 s] "hi" has text within maxChars,
and the karaoke chunker does produce exactly one chunk, but that chunk
spans frames [30, 66] instead of the cue's exact frame range [30, 45]: the
single chunk is stretched to minDuration = 1.2 s, so the word-chunking mode
violates the exact-frame-range half of the claim. -/
theorem short_cue_karaoke_range_cex :
    parseSRT cexSrt3 =
      [⟨1, parseTimeQ (0, 0, 1, 0), parseTimeQ (0, 0, 1, 500), "hi".data⟩]
    ∧ (chunkSrtForKaraoke cexSrt3 defaultChunkingOptions).map
        (fun c => (c.start, c.«end»)) = [(30, 66)]
    ∧ jsRound (parseTimeQ (0, 0, 1, 500) * defaultChunkingOptions.fps) = 45
    ∧ (66 : ℤ) ≠ 45 := by
  refine ⟨rfl, ?_, by norm_num [parseTimeQ, jsRound, defaultChunkingOptions], by norm_num⟩
  have h1 : parseSRT cexSrt3 =
      [⟨1, parseTimeQ (0, 0, 1, 0), parseTimeQ (0, 0, 1, 500), "hi".data⟩] := rfl
  have h2 : tokens (cleanTextOf "hi".data) = ["hi".data] := rfl
  have h3 : groupWords 7 ["hi".data] = [["hi".data]] := rfl
  rw [chunkSrtForKaraoke, h1]
  norm_num [parseTimeQ, List.enum, karaokeChunksForItem, wordsOf, defaultChunkingOptions,
    h2, h3, karaokeStartSec, karaokeChunkDuration, jsRound, List.mapIdx_cons, List.mapIdx_nil,
    List.cons_ne_nil]

/-- C3 (amended): a cue whose trimmed text fits within maxChars yields
exactly one chunk in both modes.  In character mode that chunk spans the
cue's exact frame range [round(startTime*fps), round(endTime*fps)].  In
karaoke mode (for a cue whose cleaned text fits within maxChars and has at
least one word) the single chunk starts at round(startTime*fps) but ends at
round((startTime + max(endTime-startTime, minDuration))*fps): the exact
range is attained only when the cue lasts at least minDuration. -/
theorem short_cue_single_chunk_amended (sub : SubtitleEntry) (cfg : ChunkConfig)
    (item : SubtitleEntry) (idx : ℕ) (opts : ChunkingOptions)
    (hs : (jsTrim sub.text).length ≤ cfg.maxChars)
    (hk : (cleanTextOf item.text).length ≤ opts.maxChars)
    (hw : wordsOf item.text ≠ []) :
    chunkSingleSubtitle sub cfg =
      [⟨jsRound (sub.startTime * cfg.fps), jsRound (sub.endTime * cfg.fps),
        jsTrim sub.text, sub, 0, 1⟩]
    ∧ karaokeChunksForItem item idx opts =
      [⟨jsRound (item.startTime * opts.fps),
        jsRound ((item.startTime + max (item.endTime - item.startTime) opts.minDuration) *
          opts.fps),
        joinSpace (wordsOf item.text), (idx : ℤ) + 1, 0⟩] := by
  constructor
  · simp only [chunkSingleSubtitle]
    rw [if_pos hs]
  · have hjoin : (joinSpace ([] ++ wordsOf item.text)).length ≤ opts.maxChars := by
      rw [List.nil_append]
      calc (joinSpace (wordsOf item.text)).length
          ≤ (cleanTextOf item.text).length := tokens_joinSpace_length_le _
        _ ≤ opts.maxChars := hk
    have hgw : groupWords opts.maxChars (wordsOf item.text) = [wordsOf item.text] := by
      have := groupWordsGo_all opts.maxChars (wordsOf item.text) [] (fun h => hw h.2) hjoin
      simpa [groupWords] using this
    simp only [karaokeChunksForItem, hgw, List.mapIdx_cons, List.mapIdx_nil,
      List.length_singleton]
    simp [karaokeStartSec, karaokeChunkDuration, KaraokeChunk.mk.injEq]

/-- Short-cue witness inputs. -/
def wSub3 : SubtitleEntry := ⟨2, 3, 4, "ok".data⟩

def wItem3 : SubtitleEntry := ⟨1, 1, 2, "hola".data⟩

/-- Witness for the amended C3 theorem: a short cue in both modes. -/
theorem short_cue_single_chunk_amended_witness :
    (jsTrim wSub3.text).length ≤ wCfg1.maxChars
    ∧ (cleanTextOf wItem3.text).length ≤ defaultChunkingOptions.maxChars
    ∧ wordsOf wItem3.text ≠ []
    ∧ (chunkSingleSubtitle wSub3 wCfg1 =
        [⟨jsRound (wSub3.startTime * wCfg1.fps), jsRound (wSub3.endTime * wCfg1.fps),
          jsTrim wSub3.text, wSub3, 0, 1⟩]
      ∧ karaokeChunksForItem wItem3 0 defaultChunkingOptions =
        [⟨jsRound (wItem3.startTime * defaultChunkingOptions.fps),
          jsRound ((wItem3.startTime + max (wItem3.endTime - wItem3.startTime)
            defaultChunkingOptions.minDuration) * defaultChunkingOptions.fps),
          joinSpace (wordsOf wItem3.text), (0 : ℤ) + 1, 0⟩]) :=
  ⟨by decide, by decide, by decide,
    short_cue_single_chunk_amended wSub3 wCfg1 wItem3 0 defaultChunkingOptions
      (by decide) (by decide) (by decide)⟩

/-! ## Claim C8 -/

/-- A 1 s cue split into two character chunks. -/
def cexSub8 : SubtitleEntry := ⟨1, 0, 1, "abcd".data⟩

/-- maxChars 2, minDuration 0.2 s, 30 fps, gapFrames 0 (the default gap). -/
def cexCfg8 : ChunkConfig := ⟨2, 1/5, 30, 0, []⟩

/-- C8 counterexample: with the default gapFrames = 0 the chunks of one cue
are NOT non-overlapping: the cue [0 s, 1 s] "abcd" produces chunks spanning
[0, 15] and [15, 30], and frame 15 lies inside the inclusive range of both
chunks. -/
theorem chunks_share_boundary_frame_cex :
    (chunkSingleSubtitle cexSub8 cexCfg8).map (fun c => (c.startFrame, c.endFrame)) =
      [(0, 15), (15, 30)]
    ∧ ((0 : ℤ) ≤ 15 ∧ (15 : ℤ) ≤ 15) ∧ ((15 : ℤ) ≤ 15 ∧ (15 : ℤ) ≤ 30) := by
  refine ⟨?_, by norm_num, by norm_num⟩
  have ht : jsTrim "abcd".data = "abcd".data := rfl
  have h2 : splitTextIntoChunks "abcd".data 2 [] = ["ab".data, "cd".data] := rfl
  norm_num [chunkSingleSubtitle, chunkLongSubtitle, chunkTexts, frameDurationPerChunk,
    minFrameDuration, cexSub8, cexCfg8, ht, h2, buildChunks, setLastEnd, jsRound]

/-- C8 (amended): the chunk list of a single cue is pairwise non-overlapping
whenever gapFrames ≥ 1 (with a non-negative minimum duration and frame
rate); with the default gapFrames = 0, consecutive chunks share exactly
their boundary frame, and the active-chunk query stays deterministic only
because getActiveChunk takes the first match in list order. -/
theorem chunks_disjoint_amended (sub : SubtitleEntry) (cfg : ChunkConfig)
    (hmin : 0 ≤ cfg.minDuration) (hfps : 0 ≤ cfg.fps) (hgap : 1 ≤ cfg.gapFrames) :
    (chunkSingleSubtitle sub cfg).Pairwise fun c1 c2 => ∀ f : ℤ,
      ¬(c1.startFrame ≤ f ∧ f ≤ c1.endFrame ∧ c2.startFrame ≤ f ∧ f ≤ c2.endFrame) := by
  by_cases hb : (jsTrim sub.text).length ≤ cfg.maxChars
  · simp [chunkSingleSubtitle, if_pos hb]
  · have he : chunkSingleSubtitle sub cfg = chunkLongSubtitle sub cfg := by
      simp only [chunkSingleSubtitle]
      rw [if_neg hb]
    rw [he, chunkLongSubtitle]
    have hd : 0 ≤ frameDurationPerChunk sub cfg :=
      le_trans (jsRound_nonneg _ (mul_nonneg hmin hfps)) (le_max_right _ _)
    have hpw := buildChunks_pairwise sub (frameDurationPerChunk sub cfg) cfg.gapFrames
      (chunkTexts sub cfg).length (chunkTexts sub cfg) 0
      (jsRound (sub.startTime * cfg.fps)) hd hgap
    have hset := setLastEnd_pairwise _ (jsRound (sub.endTime * cfg.fps)) hpw
    exact hset.imp fun h f hf => by omega

/-- Same cue as the counterexample but with gapFrames 1. -/
def wCfg8 : ChunkConfig := ⟨2, 1/5, 30, 1, []⟩

/-- Witness for the amended C8 theorem at a concrete configuration with a
one-frame gap. -/
theorem chunks_disjoint_amended_witness :
    (0 : ℚ) ≤ wCfg8.minDuration ∧ (0 : ℚ) ≤ wCfg8.fps ∧ (1 : ℤ) ≤ wCfg8.gapFrames
    ∧ (chunkSingleSubtitle cexSub8 wCfg8).Pairwise fun c1 c2 => ∀ f : ℤ,
        ¬(c1.startFrame ≤ f ∧ f ≤ c1.endFrame ∧ c2.startFrame ≤ f ∧ f ≤ c2.endFrame) :=
  ⟨by norm_num [wCfg8], by norm_num [wCfg8], by norm_num [wCfg8],
    chunks_disjoint_amended cexSub8 wCfg8 (by norm_num [wCfg8]) (by norm_num [wCfg8])
      (by norm_num [wCfg8])⟩

/-! ## Claim C4 -/

theorem getActiveSegment_first_min (timeline : List TimelineSegment) (t : ℚ) :
    timeline.Pairwise (fun a b => a.startTime ≤ b.startTime) →
    ∀ s, getActiveSegment timeline t = some s →
      s ∈ timeline ∧ (s.startTime ≤ t ∧ t ≤ s.endTime)
      ∧ ∀ s2 ∈ timeline, (s2.startTime ≤ t ∧ t ≤ s2.endTime) →
          s.startTime ≤ s2.startTime := by
  intro hsort s hs
  rw [getActiveSegment, List.find?_eq_some] at hs
  obtain ⟨hps, as, bs, hdecomp, hfail⟩ := hs
  simp only [Bool.and_eq_true, decide_eq_true_eq] at hps
  subst hdecomp
  refine ⟨by simp, hps, ?_⟩
  intro s2 hmem hc2
  rw [List.pairwise_append] at hsort
  rcases List.mem_append.mp hmem with h2 | h2
  · have hbad := hfail s2 h2
    simp [hc2.1, hc2.2] at hbad
  · rcases List.mem_cons.mp h2 with rfl | h3
    · exact le_refl _
    · exact (List.pairwise_cons.mp hsort.2.1).1 s2 h3

/-- C4: on a timeline sorted by start time, getActiveSegment returns the
first segment in sorted order whose inclusive [startTime, endTime] range
contains the query time, which is a containing segment of minimal start
time (so with overlapping segments the earlier-starting one wins); when no
segment contains the time, it returns none and SequencedVideo falls back
to the center (full-frame) layout. -/
theorem active_segment_query (timeline : List TimelineSegment) (t : ℚ)
    (hsort : timeline.Pairwise fun a b => a.startTime ≤ b.startTime) :
    (∀ s, getActiveSegment timeline t = some s →
      s ∈ timeline ∧ (s.startTime ≤ t ∧ t ≤ s.endTime)
      ∧ ∀ s2 ∈ timeline, (s2.startTime ≤ t ∧ t ≤ s2.endTime) →
          s.startTime ≤ s2.startTime)
    ∧ (getActiveSegment timeline t = none ↔
        ∀ s ∈ timeline, ¬(s.startTime ≤ t ∧ t ≤ s.endTime))
    ∧ (getActiveSegment timeline t = none →
        currentLayoutOf timeline t = LayoutType.center) := by
  refine ⟨getActiveSegment_first_min timeline t hsort, ?_, ?_⟩
  · rw [getActiveSegment, List.find?_eq_none]
    constructor
    · intro h s hsm hc
      exact absurd (by simp [hc.1, hc.2]) (h s hsm)
    · intro h s hsm hp
      simp only [Bool.and_eq_true, decide_eq_true_eq] at hp
      exact h s hsm hp
  · intro h
    rw [currentLayoutOf, h]

/-- The spec's overlap scenario: [0,5] split screen and [2,8] inset. -/
def wSeg1 : TimelineSegment :=
  ⟨0, 5, 5, .bottom, "Narrator and video split screen", 1, none, "a", none, none⟩

def wSeg2 : TimelineSegment :=
  ⟨2, 8, 6, .circle, "Video only on screen", 2, none, "b", none, none⟩

def wTimeline : List TimelineSegment := [wSeg1, wSeg2]

/-- Witness for the C4 theorem on the spec's overlapping-segment scenario
at query time 3. -/
theorem active_segment_query_witness :
    wTimeline.Pairwise (fun a b => a.startTime ≤ b.startTime)
    ∧ ((∀ s, getActiveSegment wTimeline 3 = some s →
        s ∈ wTimeline ∧ (s.startTime ≤ 3 ∧ (3 : ℚ) ≤ s.endTime)
        ∧ ∀ s2 ∈ wTimeline, (s2.startTime ≤ 3 ∧ (3 : ℚ) ≤ s2.endTime) →
            s.startTime ≤ s2.startTime)
      ∧ (getActiveSegment wTimeline 3 = none ↔
          ∀ s ∈ wTimeline, ¬(s.startTime ≤ 3 ∧ (3 : ℚ) ≤ s.endTime))
      ∧ (getActiveSegment wTimeline 3 = none →
          currentLayoutOf wTimeline 3 = LayoutType.center)) :=
  ⟨by norm_num [wTimeline, wSeg1, wSeg2, List.pairwise_cons],
    active_segment_query wTimeline 3
      (by norm_num [wTimeline, wSeg1, wSeg2, List.pairwise_cons])⟩

/-! ## Claim C5 -/

theorem mem_insertByStart (x y : TimelineSegment) (l : List TimelineSegment) :
    y ∈ insertByStart x l ↔ y = x ∨ y ∈ l := by
  induction l with
  | nil => simp [insertByStart]
  | cons z zs ih =>
    rw [insertByStart]
    by_cases h : z.startTime ≤ x.startTime
    · rw [if_pos h]
      rw [List.mem_cons, ih, List.mem_cons]
      tauto
    · rw [if_neg h]
      rw [List.mem_cons, List.mem_cons]

theorem pairwise_insertByStart (x : TimelineSegment) (l : List TimelineSegment)
    (h : l.Pairwise fun a b => a.startTime ≤ b.startTime) :
    (insertByStart x l).Pairwise fun a b => a.startTime ≤ b.startTime := by
  induction l with
  | nil => simp [insertByStart]
  | cons z zs ih =>
    rw [List.pairwise_cons] at h
    rw [insertByStart]
    by_cases hle : z.startTime ≤ x.startTime
    · rw [if_pos hle, List.pairwise_cons]
      refine ⟨fun y hy => ?_, ih h.2⟩
      rcases (mem_insertByStart x y zs).mp hy with rfl | hy2
      · exact hle
      · exact h.1 y hy2
    · rw [if_neg hle, List.pairwise_cons]
      refine ⟨fun y hy => ?_, List.pairwise_cons.mpr h⟩
      rcases List.mem_cons.mp hy with rfl | hy2
      · exact le_of_not_le hle
      · exact le_trans (le_of_not_le hle) (h.1 y hy2)

theorem filter_insertByStart (x : TimelineSegment) (l : List TimelineSegment) (q : ℚ)
    (h : l.Pairwise fun a b => a.startTime ≤ b.startTime) :
    (insertByStart x l).filter (fun s => decide (s.startTime = q)) =
      l.filter (fun s => decide (s.startTime = q)) ++
        if x.startTime = q then [x] else [] := by
  induction l with
  | nil => by_cases hx : x.startTime = q <;> simp [insertByStart, hx]
  | cons z zs ih =>
    rw [List.pairwise_cons] at h
    rw [insertByStart]
    by_cases hle : z.startTime ≤ x.startTime
    · rw [if_pos hle]
      simp only [List.filter_cons, ih h.2]
      by_cases hz : z.startTime = q
      · simp [hz]
      · simp [hz]
    · rw [if_neg hle]
      have hxz : x.startTime < z.startTime := not_le.mp hle
      by_cases hx : x.startTime = q
      · have hfe : (z :: zs).filter (fun s => decide (s.startTime = q)) = [] := by
          rw [List.filter_eq_nil_iff]
          intro a ha
          rcases List.mem_cons.mp ha with rfl | ha2
          · rw [hx] at hxz
            simp only [decide_eq_true_eq]
            intro he
            rw [he] at hxz
            exact lt_irrefl q hxz
          · have hza := h.1 a ha2
            rw [hx] at hxz
            simp only [decide_eq_true_eq]
            intro he
            rw [he] at hza
            exact lt_irrefl q (lt_of_lt_of_le hxz hza)
        rw [List.filter_cons, hfe]
        simp [hx]
      · simp [List.filter_cons, hx]

theorem pairwise_foldl_insert (l acc : List TimelineSegment)
    (h : acc.Pairwise fun a b => a.startTime ≤ b.startTime) :
    (l.foldl (fun a x => insertByStart x a) acc).Pairwise
      fun a b => a.startTime ≤ b.startTime := by
  induction l generalizing acc with
  | nil => simpa using h
  | cons x xs ih =>
    rw [List.foldl_cons]
    exact ih _ (pairwise_insertByStart x acc h)

theorem filter_foldl_insert (l acc : List TimelineSegment) (q : ℚ)
    (h : acc.Pairwise fun a b => a.startTime ≤ b.startTime) :
    (l.foldl (fun a x => insertByStart x a) acc).filter
        (fun s => decide (s.startTime = q)) =
      acc.filter (fun s => decide (s.startTime = q)) ++
        l.filter (fun s => decide (s.startTime = q)) := by
  induction l generalizing acc with
  | nil => simp
  | cons x xs ih =>
    rw [List.foldl_cons, ih _ (pairwise_insertByStart x acc h),
      filter_insertByStart x acc q h, List.filter_cons]
    by_cases hx : x.startTime = q
    · simp [hx, List.append_assoc]
    · simp [hx]

/-- C5: the timeline produced by parseSegmentedPrompts is sorted ascending
by startTime, and the sort is stable on ties: for every start time value,
the segments carrying that start time appear in exactly their original
emission order (the filtered sublists agree). -/
theorem timeline_sorted_and_stable (data : SegmentedPromptsData) :
    (parseSegmentedPrompts data).Pairwise (fun a b => a.startTime ≤ b.startTime)
    ∧ ∀ q : ℚ, (parseSegmentedPrompts data).filter (fun s => decide (s.startTime = q)) =
        (emitTimeline data).filter (fun s => decide (s.startTime = q)) := by
  constructor
  · exact pairwise_foldl_insert _ [] (by simp)
  · intro q
    have := filter_foldl_insert (emitTimeline data) [] q (by simp)
    simpa [parseSegmentedPrompts, jsSortByStartTime] using this

/-! ## Claim C6 -/

theorem clamp01_nonneg (q : ℚ) : 0 ≤ clamp01 q :=
  le_min (by norm_num) (le_max_left 0 q)

theorem clamp01_le_one (q : ℚ) : clamp01 q ≤ 1 := min_le_left 1 _

theorem clamp01_lt_one (q : ℚ) (h : q < 1) : clamp01 q < 1 :=
  lt_of_le_of_lt (min_le_right 1 _) (max_lt (by norm_num) h)

theorem clamp01_pos (q : ℚ) (h : 0 < q) : 0 < clamp01 q :=
  lt_min (by norm_num) (lt_of_lt_of_le h (le_max_right 0 q))

theorem fadeIn_eq (easing : ℚ → ℚ) (s d f : ℤ) :
    fadeInProgress easing s d f =
      easing (clamp01 (((f : ℚ) - (s : ℚ)) / (d : ℚ))) := by
  rw [fadeInProgress, interpolateClamped]
  have h : ((s : ℚ) + (d : ℚ) - (s : ℚ)) = (d : ℚ) := by ring
  rw [h]
  ring

theorem fadeOut_eq (easing : ℚ → ℚ) (e d f : ℤ) :
    fadeOutProgress easing e d f =
      1 - easing (clamp01 (((f : ℚ) - ((e : ℚ) - (d : ℚ))) / (d : ℚ))) := by
  rw [fadeOutProgress, interpolateClamped]
  have h2 : (e : ℚ) - ((e : ℚ) - (d : ℚ)) = (d : ℚ) := by ring
  rw [h2]
  ring

/-- C6: for any easing map fixing 0 and 1 and keeping the open and closed
unit intervals inside themselves (which the configured remotion easings do),
the displayed opacity of a chunk equals the minimum of the clamped fade-in
and fade-out curves; it always stays within [0, 1], is exactly 0 at the
chunk's start and end frames (the chunk fades both in and out), and for a
chunk shorter than twice the animation duration it stays strictly below 1
at every frame (a reduced peak). -/
theorem subtitle_opacity_envelope (easing : ℚ → ℚ) (s e d : ℤ)
    (h0 : easing 0 = 0) (h1 : easing 1 = 1)
    (hbd : ∀ q : ℚ, 0 ≤ q → q ≤ 1 → 0 ≤ easing q ∧ easing q ≤ 1)
    (hst : ∀ q : ℚ, 0 < q → q < 1 → 0 < easing q ∧ easing q < 1)
    (hd : 0 < d) :
    (∀ f : ℤ, subtitleOpacity easing s e d f =
      min (fadeInProgress easing s d f) (fadeOutProgress easing e d f))
    ∧ (∀ f : ℤ, 0 ≤ subtitleOpacity easing s e d f ∧ subtitleOpacity easing s e d f ≤ 1)
    ∧ subtitleOpacity easing s e d s = 0
    ∧ subtitleOpacity easing s e d e = 0
    ∧ (e - s < 2 * d → ∀ f : ℤ, subtitleOpacity easing s e d f < 1) := by
  have hdQ : (0 : ℚ) < (d : ℚ) := by exact_mod_cast hd
  refine ⟨fun f => rfl, ?_, ?_, ?_, ?_⟩
  · intro f
    rw [subtitleOpacity, fadeIn_eq, fadeOut_eq]
    obtain ⟨hi0, hi1⟩ := hbd _ (clamp01_nonneg (((f : ℚ) - s) / d))
      (clamp01_le_one (((f : ℚ) - s) / d))
    obtain ⟨ho0, ho1⟩ := hbd _ (clamp01_nonneg (((f : ℚ) - ((e : ℚ) - d)) / d))
      (clamp01_le_one (((f : ℚ) - ((e : ℚ) - d)) / d))
    exact ⟨le_min hi0 (by linarith), le_trans (min_le_left _ _) hi1⟩
  · rw [subtitleOpacity, fadeIn_eq, fadeOut_eq]
    have harg : (((s : ℚ) - s) / d) = 0 := by
      rw [sub_self, zero_div]
    rw [harg]
    have hc : clamp01 0 = 0 := by
      rw [clamp01]
      norm_num
    rw [hc, h0]
    obtain ⟨ho0, ho1⟩ := hbd _ (clamp01_nonneg (((s : ℚ) - ((e : ℚ) - d)) / d))
      (clamp01_le_one (((s : ℚ) - ((e : ℚ) - d)) / d))
    exact min_eq_left (by linarith)
  · rw [subtitleOpacity, fadeIn_eq, fadeOut_eq]
    have harg : (((e : ℚ) - ((e : ℚ) - d)) / d) = 1 := by
      rw [show ((e : ℚ) - ((e : ℚ) - d)) = (d : ℚ) by ring]
      exact div_self (ne_of_gt hdQ)
    rw [harg]
    have hc : clamp01 1 = 1 := by
      rw [clamp01]
      norm_num
    rw [hc, h1]
    obtain ⟨hi0, hi1⟩ := hbd _ (clamp01_nonneg (((e : ℚ) - s) / d))
      (clamp01_le_one (((e : ℚ) - s) / d))
    rw [sub_self]
    exact min_eq_right hi0
  · intro hshort f
    rw [subtitleOpacity, fadeIn_eq, fadeOut_eq]
    by_cases hcase : f < s + d
    · have hfs : ((f : ℚ) - s) < (d : ℚ) := by
        have hz : (f - s : ℤ) < d := by omega
        exact_mod_cast hz
      have ht : ((f : ℚ) - s) / d < 1 := by
        rw [div_lt_one hdQ]
        exact hfs
      have hy1 := clamp01_lt_one _ ht
      have hy0 := clamp01_nonneg (((f : ℚ) - s) / d)
      have heas : easing (clamp01 (((f : ℚ) - s) / d)) < 1 := by
        rcases eq_or_lt_of_le hy0 with heq | hpos
        · rw [← heq, h0]
          norm_num
        · exact (hst _ hpos hy1).2
      exact lt_of_le_of_lt (min_le_left _ _) heas
    · push_neg at hcase
      have ht : 0 < ((f : ℚ) - ((e : ℚ) - d)) / d := by
        apply div_pos _ hdQ
        have hz : (0 : ℤ) < f - (e - d) := by omega
        exact_mod_cast hz
      have hy := clamp01_pos _ ht
      have hy1 := clamp01_le_one (((f : ℚ) - ((e : ℚ) - d)) / d)
      have heas : 0 < easing (clamp01 (((f : ℚ) - ((e : ℚ) - d)) / d)) := by
        rcases eq_or_lt_of_le hy1 with heq | hlt
        · rw [heq, h1]
          norm_num
        · exact (hst _ hy hlt).1
      exact lt_of_le_of_lt (min_le_right _ _) (by linarith)

/-- Witness for the C6 theorem with the linear easing (one of the
configured easings) on the chunk [0, 1] with a one-frame animation
window. -/
theorem subtitle_opacity_envelope_witness :
    ((id : ℚ → ℚ) 0 = 0) ∧ ((id : ℚ → ℚ) 1 = 1)
    ∧ (∀ q : ℚ, 0 ≤ q → q ≤ 1 → 0 ≤ (id : ℚ → ℚ) q ∧ (id : ℚ → ℚ) q ≤ 1)
    ∧ (∀ q : ℚ, 0 < q → q < 1 → 0 < (id : ℚ → ℚ) q ∧ (id : ℚ → ℚ) q < 1)
    ∧ (0 : ℤ) < 1
    ∧ ((∀ f : ℤ, subtitleOpacity id 0 1 1 f =
        min (fadeInProgress id 0 1 f) (fadeOutProgress id 1 1 f))
      ∧ (∀ f : ℤ, 0 ≤ subtitleOpacity id 0 1 1 f ∧ subtitleOpacity id 0 1 1 f ≤ 1)
      ∧ subtitleOpacity id 0 1 1 0 = 0
      ∧ subtitleOpacity id 0 1 1 1 = 0
      ∧ ((1 : ℤ) - 0 < 2 * 1 → ∀ f : ℤ, subtitleOpacity id 0 1 1 f < 1)) :=
  ⟨rfl, rfl, fun _ hq hq1 => ⟨hq, hq1⟩, fun _ hq hq1 => ⟨hq, hq1⟩, by norm_num,
    subtitle_opacity_envelope id 0 1 1 rfl rfl (fun _ hq hq1 => ⟨hq, hq1⟩)
      (fun _ hq hq1 => ⟨hq, hq1⟩) (by norm_num)⟩

/-! ## Claim C7 -/

/-- An out-of-order cue list: the first cue reaches furthest (10 s), the
last cue ends at 5 s. -/
def cexSubsDur : List SubtitleEntry := [⟨1, 0, 10, "a".data⟩, ⟨2, 2, 5, "b".data⟩]

/-- C7 counterexample: the duration estimator reads the END OF THE LAST CUE
IN LIST ORDER, not the maximum end time: on a list whose furthest-reaching
cue is not last, it returns ceil((5+1)*30) = 180 frames instead of
ceil((10+1)*30) = 330. -/
theorem duration_not_from_max_cex :
    calculateDurationFromSubtitles cexSubsDur 30 = 180
    ∧ maxEndTime cexSubsDur = some 10
    ∧ jsCeil ((10 + 1) * 30) = 330
    ∧ (180 : ℤ) ≠ 330 := by
  refine ⟨?_, ?_, by norm_num [jsCeil], by norm_num⟩
  · norm_num [calculateDurationFromSubtitles, cexSubsDur, jsCeil]
  · norm_num [maxEndTime, cexSubsDur, List.max?, List.foldl, max_def]

/-- C7 (amended): the duration estimators read the end time of the LAST cue
in list order plus a fixed buffer (1 s for calculateDurationFromSubtitles,
2 s for calculateVideoDuration) rounded up to frames; this coincides with
the furthest-reaching end time exactly when the last cue attains the
maximum; an empty cue list yields the 690-frame fallback in both. -/
theorem duration_from_last_cue_amended (subtitles : List SubtitleEntry) (fps : ℚ)
    (last : SubtitleEntry) (hlast : subtitles.getLast? = some last) :
    calculateDurationFromSubtitles subtitles fps = jsCeil ((last.endTime + 1) * fps)
    ∧ calculateVideoDurationCore subtitles fps = jsCeil ((last.endTime + 2) * fps)
    ∧ calculateDurationFromSubtitles [] fps = 690
    ∧ calculateVideoDurationCore [] fps = 690
    ∧ ((∀ e ∈ subtitles, e.endTime ≤ last.endTime) →
        maxEndTime subtitles = some last.endTime) := by
  refine ⟨?_, ?_, rfl, rfl, ?_⟩
  · rw [calculateDurationFromSubtitles, hlast]
  · rw [calculateVideoDurationCore, hlast]
  · intro hmax
    haveI : Std.Antisymm ((· : ℚ) ≤ ·) := ⟨fun h h2 => le_antisymm h h2⟩
    rw [maxEndTime, List.max?_eq_some_iff (fun a : ℚ => le_refl a)
      (fun a b => max_choice a b) (fun _ _ _ => max_le_iff)]
    constructor
    · exact List.mem_map.mpr ⟨last, List.mem_of_getLast?_eq_some hlast, rfl⟩
    · intro b hb
      obtain ⟨e, he, rfl⟩ := List.mem_map.mp hb
      exact hmax e he

/-- Witness for the amended C7 theorem on the out-of-order list, whose
last cue ends at 5 s. -/
theorem duration_from_last_cue_amended_witness :
    cexSubsDur.getLast? = some ⟨2, 2, 5, "b".data⟩
    ∧ (calculateDurationFromSubtitles cexSubsDur 30 =
        jsCeil (((⟨2, 2, 5, "b".data⟩ : SubtitleEntry).endTime + 1) * 30)
      ∧ calculateVideoDurationCore cexSubsDur 30 =
        jsCeil (((⟨2, 2, 5, "b".data⟩ : SubtitleEntry).endTime + 2) * 30)
      ∧ calculateDurationFromSubtitles [] 30 = 690
      ∧ calculateVideoDurationCore [] 30 = 690
      ∧ ((∀ e ∈ cexSubsDur, e.endTime ≤ (⟨2, 2, 5, "b".data⟩ : SubtitleEntry).endTime) →
          maxEndTime cexSubsDur = some (⟨2, 2, 5, "b".data⟩ : SubtitleEntry).endTime)) :=
  ⟨rfl, duration_from_last_cue_amended cexSubsDur 30 ⟨2, 2, 5, "b".data⟩ rfl⟩

/-! ## Claim C9 -/

/-- A record with id line "0", reversed times, and no text line. -/
def cexSrt9 : Str := "0\n00:00:02,000 --> 00:00:01,000".data

/-- C9 counterexample: parseSRT performs no validation: the record with id
0, end time (1 s) before start time (2 s) and empty text is returned as an
entry, violating the claimed invariants id ≥ 1, endTime > startTime and
non-empty trimmed text all at once. -/
theorem parse_srt_invariants_cex :
    parseSRT cexSrt9 = [⟨0, parseTimeQ (0, 0, 2, 0), parseTimeQ (0, 0, 1, 0), []⟩]
    ∧ ¬(∀ e ∈ parseSRT cexSrt9,
        1 ≤ e.id ∧ 0 ≤ e.startTime ∧ e.startTime < e.endTime ∧ jsTrim e.text ≠ []) := by
  refine ⟨rfl, fun h => ?_⟩
  have hmem : (⟨0, parseTimeQ (0, 0, 2, 0), parseTimeQ (0, 0, 1, 0), []⟩ : SubtitleEntry) ∈
      parseSRT cexSrt9 := by
    rw [show parseSRT cexSrt9 =
      [⟨0, parseTimeQ (0, 0, 2, 0), parseTimeQ (0, 0, 1, 0), []⟩] from rfl]
    exact List.mem_singleton_self _
  exact absurd (h _ hmem).1 (by norm_num)

theorem parseTimeQ_nonneg (t : ℕ × ℕ × ℕ × ℕ) : 0 ≤ parseTimeQ t := by
  rw [parseTimeQ]
  positivity

/-- The invariant carried by the parser state: times already parsed into a
collect state are non-negative. -/
def stateTimesOK : PLState → Prop
  | .collect _ st et _ => 0 ≤ st ∧ 0 ≤ et
  | _ => True

theorem idleStep_timesOK (l : Str) : stateTimesOK (idleStep l) := by
  rw [idleStep]
  by_cases h : (jsTrim l).isEmpty = true
  · rw [if_pos h]
    trivial
  · rw [if_neg h]
    cases parseJsInt l <;> trivial

theorem plGo_times_nonneg (lines : List Str) (state : PLState) (hs : stateTimesOK state) :
    ∀ e ∈ plGo state lines, 0 ≤ e.startTime ∧ 0 ≤ e.endTime := by
  induction lines generalizing state with
  | nil =>
    match state with
    | .idle => simp [plGo]
    | .expectTime id => simp [plGo]
    | .collect id st et acc =>
      intro e he
      simp only [plGo, List.mem_singleton] at he
      subst he
      exact hs
  | cons l rest ih =>
    match state with
    | .idle => exact ih (idleStep l) (idleStep_timesOK l)
    | .expectTime id =>
      show ∀ e ∈ plGo (.expectTime id) (l :: rest), _
      rw [plGo]
      cases hft : findTimestamp l with
      | none => exact ih .idle trivial
      | some t => exact ih _ ⟨parseTimeQ_nonneg t.1, parseTimeQ_nonneg t.2⟩
    | .collect id st et acc =>
      show ∀ e ∈ plGo (.collect id st et acc) (l :: rest), _
      rw [plGo]
      by_cases htl : textLineP l = true
      · rw [if_pos htl]
        exact ih _ hs
      · rw [if_neg htl]
        intro e he
        rcases List.mem_cons.mp he with rfl | he2
        · exact hs
        · exact ih (idleStep l) (idleStep_timesOK l) e he2

/-- C9 (amended): every entry returned by parseSRT has non-negative start
and end times (they are parsed from all-digit timestamp groups); the
remaining claimed invariants (id ≥ 1, endTime > startTime, non-empty
trimmed text) are not enforced by the parser. -/
theorem parse_srt_times_nonneg (srtContent : Str) :
    ∀ e ∈ parseSRT srtContent, 0 ≤ e.startTime ∧ 0 ≤ e.endTime :=
  plGo_times_nonneg _ .idle trivial

/-- A well-formed one-cue file and its parsed entry. -/
def wSrt9 : Str := "1\n00:00:01,000 --> 00:00:02,500\nhola mundo".data

def wEntry9 : SubtitleEntry :=
  ⟨1, parseTimeQ (0, 0, 1, 0), parseTimeQ (0, 0, 2, 500), "hola mundo".data⟩

/-- Witness for the amended C9 theorem at a concrete parsed entry. -/
theorem parse_srt_times_nonneg_witness :
    wEntry9 ∈ parseSRT wSrt9 ∧ 0 ≤ wEntry9.startTime ∧ 0 ≤ wEntry9.endTime :=
  have hmem : wEntry9 ∈ parseSRT wSrt9 := by
    rw [show parseSRT wSrt9 = [wEntry9] from rfl]
    exact List.mem_singleton_self _
  ⟨hmem, parse_srt_times_nonneg wSrt9 wEntry9 hmem⟩

/-! ## Claim C10 -/

theorem bestBreak_fold_bound (remaining : Str) (prio : List Str) (n : ℕ) :
    ∀ (l : List ℕ) (init : ℤ × ℤ), (∀ i ∈ l, i < n) →
      (init.1 = -1 ∨ (0 ≤ init.1 ∧ init.1 < (n : ℤ))) →
      ((l.foldl
          (fun best i =>
            let priority := jsIndexOf prio (remaining.getD i ' ')
            if priority ≠ -1 ∧ priority > best.2 then ((i : ℤ), priority) else best)
          init).1 = -1 ∨
        (0 ≤ (l.foldl
          (fun best i =>
            let priority := jsIndexOf prio (remaining.getD i ' ')
            if priority ≠ -1 ∧ priority > best.2 then ((i : ℤ), priority) else best)
          init).1 ∧
        (l.foldl
          (fun best i =>
            let priority := jsIndexOf prio (remaining.getD i ' ')
            if priority ≠ -1 ∧ priority > best.2 then ((i : ℤ), priority) else best)
          init).1 < (n : ℤ))) := by
  intro l
  induction l with
  | nil => intro init _ h; exact h
  | cons i is ih =>
    intro init hmem h
    rw [List.foldl_cons]
    apply ih _ (fun j hj => hmem j (List.mem_cons_of_mem _ hj))
    simp only
    by_cases hc : jsIndexOf prio (remaining.getD i ' ') ≠ -1 ∧
        jsIndexOf prio (remaining.getD i ' ') > init.2
    · rw [if_pos hc]
      right
      refine ⟨Int.ofNat_nonneg i, ?_⟩
      show (i : ℤ) < (n : ℤ)
      exact_mod_cast hmem i (List.mem_cons_self _ _)
    · rw [if_neg hc]
      exact h

theorem bestBreakOf_bound (remaining : Str) (maxChars : ℕ) (prio : List Str) :
    (bestBreakOf remaining maxChars prio).1 = -1 ∨
      (0 ≤ (bestBreakOf remaining maxChars prio).1 ∧
        (bestBreakOf remaining maxChars prio).1 < ((min maxChars remaining.length : ℕ) : ℤ)) := by
  rw [bestBreakOf]
  exact bestBreak_fold_bound remaining prio (min maxChars remaining.length)
    (List.range (min maxChars remaining.length)) (-1, -1)
    (fun i hi => List.mem_range.mp hi) (Or.inl rfl)

theorem breakLen_le (remaining : Str) (maxChars : ℕ) (prio : List Str)
    (hmx : 1 ≤ maxChars) : breakLen remaining maxChars prio ≤ maxChars := by
  rw [breakLen]
  rcases bestBreakOf_bound remaining maxChars prio with hb | ⟨hb0, hblt⟩
  · rw [hb]
    simp only [if_pos rfl]
    omega
  · rw [if_neg (by omega)]
    have : (bestBreakOf remaining maxChars prio).1 < (maxChars : ℤ) := by
      have hmin : ((min maxChars remaining.length : ℕ) : ℤ) ≤ (maxChars : ℤ) := by
        exact_mod_cast min_le_left maxChars remaining.length
      omega
    omega

theorem breakLen_pos (remaining : Str) (maxChars : ℕ) (prio : List Str) :
    1 ≤ breakLen remaining maxChars prio ∨ breakLen remaining maxChars prio = 0 := by
  omega

theorem splitGoFuel_length_le (maxChars : ℕ) (prio : List Str) (hmx : 1 ≤ maxChars)
    (fuel : ℕ) :
    ∀ remaining : Str, ∀ c ∈ splitGoFuel maxChars prio fuel remaining,
      c.length ≤ maxChars := by
  induction fuel with
  | zero =>
    intro remaining c hc
    simp [splitGoFuel] at hc
  | succ fuel ih =>
    intro remaining c hc
    rw [splitGoFuel] at hc
    by_cases he : remaining.isEmpty = true
    · rw [if_pos he] at hc
      simp at hc
    · rw [if_neg he] at hc
      by_cases hlen : remaining.length ≤ maxChars
      · rw [if_pos hlen] at hc
        rw [List.mem_singleton] at hc
        subst hc
        exact hlen
      · rw [if_neg hlen] at hc
        rcases List.mem_cons.mp hc with rfl | hc2
        · rw [List.length_take]
          exact le_trans (min_le_left _ _) (breakLen_le remaining maxChars prio hmx)
        · exact ih _ c hc2

/-- C10: for positive maxChars and any break-priority list, every fragment
returned by the character-mode splitter has length at most maxChars and is
non-empty after trimming (whitespace-only fragments are filtered out). -/
theorem split_chunks_bounded (text : Str) (maxChars : ℕ) (prio : List Str)
    (hmx : 1 ≤ maxChars) :
    ∀ c ∈ splitTextIntoChunks text maxChars prio,
      c.length ≤ maxChars ∧ jsTrim c ≠ [] := by
  intro c hc
  rw [splitTextIntoChunks, List.mem_filter] at hc
  refine ⟨splitGoFuel_length_le maxChars prio hmx text.length text c hc.1, ?_⟩
  intro hn
  have h2 := hc.2
  rw [hn] at h2
  simp at h2

/-- Witness for the C10 theorem at a concrete splitting. -/
theorem split_chunks_bounded_witness :
    1 ≤ 2
    ∧ "ab".data ∈ splitTextIntoChunks "abcdef".data 2 [",".data]
    ∧ "ab".data.length ≤ 2 ∧ jsTrim "ab".data ≠ [] :=
  have hmem : "ab".data ∈ splitTextIntoChunks "abcdef".data 2 [",".data] := by
    rw [show splitTextIntoChunks "abcdef".data 2 [",".data] =
      ["ab".data, "cd".data, "ef".data] from rfl]
    exact List.mem_cons_self _ _
  ⟨by norm_num, hmem, split_chunks_bounded "abcdef".data 2 [",".data] (by norm_num) _ hmem⟩
